import Mathlib

/-!
Shallow embedding of the real-time collaboration synchronization engine
(backend/services/collaboration.py, class CollaborationManager).

Python dictionaries are modelled as insertion-ordered association lists
with unique keys; JSON scalar values as the type JVal; the Redis list
backing the per-session event history as a Lean list whose head is the
most recently pushed element (LPUSH prepends).
-/

namespace Collab

/-- Scalar JSON values appearing in collaboration event fields. -/
inductive JVal where
  | s (v : String)
  | i (v : Int)
deriving DecidableEq, Repr

/-- A collaboration event on the wire: a JSON object, modelled as an
insertion-ordered association list of fields. -/
abbrev Event := List (String × JVal)

/-- Python dict read, d.get(k): first binding of key k. -/
def getA {V : Type} (k : String) : List (String × V) → Option V
  | [] => none
  | p :: l => if p.1 = k then some p.2 else getA k l

/-- Python dict assignment d[k] = v: replace the binding of k in place if
present, otherwise append it. -/
def setA {V : Type} (k : String) (v : V) : List (String × V) → List (String × V)
  | [] => [(k, v)]
  | p :: l => if p.1 = k then (k, v) :: l else p :: setA k v l

/-- Python del d[k]: drop the binding of key k. -/
def delA {V : Type} (k : String) : List (String × V) → List (String × V)
  | [] => []
  | p :: l => if p.1 = k then delA k l else p :: delA k l

/-- Keys of an association list, in order. -/
def keysOf {V : Type} (l : List (String × V)) : List String :=
  l.map Prod.fst

/-- Well-formedness of a modelled Python dict: no duplicate keys. -/
def NodupKeys {V : Type} (l : List (String × V)) : Prop :=
  (keysOf l).Nodup

instance {V : Type} (l : List (String × V)) : Decidable (NodupKeys l) := by
  unfold NodupKeys; infer_instance

theorem getA_setA_self {V : Type} (k : String) (v : V) (l : List (String × V)) :
    getA k (setA k v l) = some v := by
  induction l with
  | nil => simp [setA, getA]
  | cons p l ih =>
    by_cases h : p.1 = k
    · simp [setA, getA, h]
    · simp [setA, getA, h, ih]

theorem getA_setA_ne {V : Type} {k k' : String} (h : k' ≠ k) (v : V) (l : List (String × V)) :
    getA k' (setA k v l) = getA k' l := by
  induction l with
  | nil =>
    simp only [setA, getA]
    rw [if_neg (fun hc => h hc.symm)]
  | cons p l ih =>
    by_cases hp : p.1 = k
    · subst hp
      simp only [setA, if_pos rfl, getA]
      rw [if_neg (fun hc => h hc.symm), if_neg (fun hc => h hc.symm)]
    · simp only [setA, if_neg hp, getA]
      by_cases hp' : p.1 = k'
      · rw [if_pos hp', if_pos hp']
      · rw [if_neg hp', if_neg hp', ih]

theorem getA_delA_self {V : Type} (k : String) (l : List (String × V)) :
    getA k (delA k l) = none := by
  induction l with
  | nil => simp [delA, getA]
  | cons p l ih =>
    by_cases h : p.1 = k
    · simp [delA, h, ih]
    · simp [delA, getA, h, ih]

theorem getA_delA_ne {V : Type} {k k' : String} (h : k' ≠ k) (l : List (String × V)) :
    getA k' (delA k l) = getA k' l := by
  induction l with
  | nil => simp [delA]
  | cons p l ih =>
    by_cases hp : p.1 = k
    · subst hp
      have e1 : delA p.1 (p :: l) = delA p.1 l := by
        simp [delA]
      rw [e1, ih]
      have e2 : getA k' (p :: l) = getA k' l := by
        simp only [getA]
        rw [if_neg (fun hc => h hc.symm)]
      rw [e2]
    · simp only [delA, if_neg hp, getA]
      by_cases hp' : p.1 = k'
      · rw [if_pos hp', if_pos hp']
      · rw [if_neg hp', if_neg hp', ih]

theorem mem_delA {V : Type} (k : String) (q : String × V) (l : List (String × V)) :
    q ∈ delA k l ↔ q ∈ l ∧ q.1 ≠ k := by
  induction l with
  | nil => simp [delA]
  | cons p l ih =>
    by_cases h : p.1 = k
    · subst h
      constructor
      · intro hq
        rcases (ih.mp ((by simpa [delA] using hq))) with ⟨h1, h2⟩
        exact ⟨List.mem_cons_of_mem _ h1, h2⟩
      · rintro ⟨hq, hne⟩
        rcases List.mem_cons.mp hq with rfl | hq
        · exact absurd rfl hne
        · simpa [delA] using ih.mpr ⟨hq, hne⟩
    · constructor
      · intro hq
        rcases List.mem_cons.mp (by simpa [delA, h] using hq) with rfl | hq
        · exact ⟨List.mem_cons_self _ _, h⟩
        · rcases ih.mp hq with ⟨h1, h2⟩
          exact ⟨List.mem_cons_of_mem _ h1, h2⟩
      · rintro ⟨hq, hne⟩
        rcases List.mem_cons.mp hq with rfl | hq
        · simp [delA, h]
        · simp [delA, h, ih.mpr ⟨hq, hne⟩]

theorem mem_keysOf {V : Type} {k : String} {l : List (String × V)} :
    k ∈ keysOf l ↔ ∃ v, (k, v) ∈ l := by
  unfold keysOf
  constructor
  · intro h
    rcases List.mem_map.mp h with ⟨q, hq, hqk⟩
    rcases q with ⟨a, b⟩
    cases hqk
    exact ⟨b, hq⟩
  · rintro ⟨v, hv⟩
    exact List.mem_map.mpr ⟨(k, v), hv, rfl⟩

theorem nodupKeys_cons {V : Type} {p : String × V} {l : List (String × V)} :
    NodupKeys (p :: l) ↔ p.1 ∉ keysOf l ∧ NodupKeys l := by
  unfold NodupKeys keysOf
  rw [List.map_cons, List.nodup_cons]

theorem keysOf_setA_of_mem {V : Type} {k : String} {l : List (String × V)} (v : V)
    (h : k ∈ keysOf l) : keysOf (setA k v l) = keysOf l := by
  induction l with
  | nil => simp [keysOf] at h
  | cons p l ih =>
    by_cases hp : p.1 = k
    · simp [setA, hp, keysOf]
    · have h0 : k ∈ p.1 :: keysOf l := by
        simpa only [keysOf, List.map_cons] using h
      have h' : k ∈ keysOf l := by
        rcases List.mem_cons.mp h0 with h1 | h1
        · exact absurd h1.symm hp
        · exact h1
      have hrec := ih h'
      simp only [setA, if_neg hp, keysOf, List.map_cons]
      unfold keysOf at hrec
      rw [hrec]

theorem setA_of_not_mem {V : Type} {k : String} {l : List (String × V)} (v : V)
    (h : k ∉ keysOf l) : setA k v l = l ++ [(k, v)] := by
  induction l with
  | nil => simp [setA]
  | cons p l ih =>
    have hp : p.1 ≠ k := by
      intro hcontra
      exact h (by simp [keysOf, hcontra])
    have h' : k ∉ keysOf l := by
      intro hcontra
      exact h (by simp [keysOf] at hcontra ⊢; exact Or.inr hcontra)
    simp [setA, hp, ih h']

theorem nodupKeys_setA {V : Type} (k : String) (v : V) {l : List (String × V)}
    (h : NodupKeys l) : NodupKeys (setA k v l) := by
  by_cases hk : k ∈ keysOf l
  · unfold NodupKeys
    rw [keysOf_setA_of_mem v hk]
    exact h
  · unfold NodupKeys
    rw [setA_of_not_mem v hk]
    unfold keysOf
    rw [List.map_append, List.map_cons, List.map_nil]
    unfold NodupKeys keysOf at h
    unfold keysOf at hk
    refine List.Nodup.append h (List.nodup_singleton k) ?_
    intro a ha hb
    rw [List.mem_singleton] at hb
    subst hb
    exact hk ha

theorem nodupKeys_delA {V : Type} (k : String) {l : List (String × V)}
    (h : NodupKeys l) : NodupKeys (delA k l) := by
  induction l with
  | nil => simpa [delA] using h
  | cons p l ih =>
    rcases nodupKeys_cons.mp h with ⟨h1, h2⟩
    by_cases hp : p.1 = k
    · simpa [delA, hp] using ih h2
    · have h3 : NodupKeys (delA k l) := ih h2
      have h4 : p.1 ∉ keysOf (delA k l) := by
        intro hc
        rcases mem_keysOf.mp hc with ⟨v, hv⟩
        exact h1 (mem_keysOf.mpr ⟨v, ((mem_delA k (p.1, v) l).mp hv).1⟩)
      have h5 : NodupKeys (p :: delA k l) := nodupKeys_cons.mpr ⟨h4, h3⟩
      simpa [delA, hp] using h5

theorem mem_setA_of_nodup {V : Type} {k : String} {v : V} {q : String × V}
    {l : List (String × V)} (hl : NodupKeys l) (hq : q ∈ setA k v l) :
    q = (k, v) ∨ (q ∈ l ∧ q.1 ≠ k) := by
  obtain ⟨a, b⟩ := q
  induction l with
  | nil =>
    have h0 : (a, b) ∈ [(k, v)] := by simpa [setA] using hq
    rw [List.mem_singleton] at h0
    exact Or.inl h0
  | cons p l ih =>
    rcases nodupKeys_cons.mp hl with ⟨h1, h2⟩
    by_cases hp : p.1 = k
    · have hq' : (a, b) ∈ (k, v) :: l := by
        simpa only [setA, if_pos hp] using hq
      rcases List.mem_cons.mp hq' with h0 | hql
      · exact Or.inl h0
      · refine Or.inr ⟨List.mem_cons_of_mem _ hql, ?_⟩
        intro hak
        have hak' : a = k := hak
        subst hak'
        exact (hp ▸ h1) (mem_keysOf.mpr ⟨b, hql⟩)
    · have hq' : (a, b) ∈ p :: setA k v l := by
        simpa only [setA, if_neg hp] using hq
      rcases List.mem_cons.mp hq' with h0 | hql
      · rw [h0]
        exact Or.inr ⟨List.mem_cons_self _ _, hp⟩
      · rcases ih h2 hql with h3 | ⟨h3, h4⟩
        · exact Or.inl h3
        · exact Or.inr ⟨List.mem_cons_of_mem _ h3, h4⟩

theorem mem_of_getA {V : Type} {k : String} {v : V} {l : List (String × V)}
    (h : getA k l = some v) : (k, v) ∈ l := by
  induction l with
  | nil => simp [getA] at h
  | cons p l ih =>
    by_cases hp : p.1 = k
    · simp [getA, hp] at h
      subst h
      rcases p with ⟨a, b⟩
      simp at hp
      subst hp
      exact List.mem_cons_self _ _
    · simp [getA, hp] at h
      exact List.mem_cons_of_mem _ (ih h)

theorem delA_of_not_mem {V : Type} {k : String} {l : List (String × V)}
    (h : k ∉ keysOf l) : delA k l = l := by
  induction l with
  | nil => simp [delA]
  | cons p l ih =>
    have hp : p.1 ≠ k := by
      intro hc
      exact h (by simp [keysOf, hc])
    have h' : k ∉ keysOf l := by
      intro hc
      exact h (by simp [keysOf] at hc ⊢; exact Or.inr hc)
    simp [delA, hp, ih h']

theorem length_delA_of_getA_some {V : Type} {k : String} {v : V} {l : List (String × V)}
    (hl : NodupKeys l) (h : getA k l = some v) :
    (delA k l).length + 1 = l.length := by
  induction l with
  | nil => simp [getA] at h
  | cons p l ih =>
    rcases nodupKeys_cons.mp hl with ⟨h1, h2⟩
    by_cases hp : p.1 = k
    · have hnot : k ∉ keysOf l := hp ▸ h1
      simp [delA, hp, delA_of_not_mem hnot]
    · simp only [getA, if_neg hp] at h
      have hrec := ih h2 h
      simp only [delA, if_neg hp, List.length_cons]
      omega

/-!
Event History Store, from CollaborationManager.store of session events.
The Redis list at key session:{id}:events is modelled as a Lean list whose
head is the most recently pushed element. LPUSH prepends, LTRIM key 0 999
keeps the newest 1000 entries, LRANGE key 0 (limit-1) reads the newest
limit entries.
-/

/-- Embedding of one call of the private store-session-event method: LPUSH
the encoded event, then LTRIM to the newest 1000 entries. The 24h EXPIRE
refresh touches no list content and is not modelled. -/
def store_session_event {α : Type} (e : α) (log : List α) : List α :=
  (e :: log).take 1000

/-- A sequence of store-session-event calls, oldest first. -/
def append_all {α : Type} (log : List α) (es : List α) : List α :=
  es.foldl (fun l e => store_session_event e l) log

/-- Embedding of the private get-session-events method: LRANGE key 0
(limit - 1), i.e. the newest limit entries, newest first. The json round
trip on each element is the identity here. -/
def get_session_events {α : Type} (limit : Nat) (log : List α) : List α :=
  log.take limit

/-- The session_state message assembled in the private send-session-state
method. -/
structure SessionStateMsg (α : Type) where
  session_id : String
  events : List α
  user_count : Int
deriving DecidableEq, Repr

/-- Embedding of the private send-session-state method: the events field is
the list returned by the get-session-events call with limit = 50, with no
reordering. -/
def send_session_state {α : Type} (sid : String) (log : List α) (userCount : Int) :
    SessionStateMsg α :=
  { session_id := sid, events := get_session_events 50 log, user_count := userCount }

/-!
Local Broadcaster, from the private broadcast-to-session method.
-/

/-- Truthiness-guarded exclusion test from the broadcast loop: the code
skips a participant uid only when exclude_user is truthy (not None and not
the empty string) and uid equals it. -/
def is_excluded (excludeUser : Option String) (uid : String) : Bool :=
  match excludeUser with
  | none => false
  | some s => (!(s == "")) && uid == s

/-- The websockets_to_send list collected by the broadcast loop over the
participants of one session. -/
def websockets_to_send {WS : Type} (participants : List (String × WS))
    (excludeUser : Option String) : List WS :=
  participants.filterMap (fun p => if is_excluded excludeUser p.1 then none else some p.2)

/-- Embedding of the private broadcast-to-session method: nothing is sent
when the session is not registered, otherwise the exclusion-filtered
websocket list of that session receives the message. -/
def broadcast_to_session {WS : Type} (sessions : List (String × List (String × WS)))
    (sid : String) (excludeUser : Option String) : List WS :=
  match getA sid sessions with
  | none => []
  | some parts => websockets_to_send parts excludeUser

/-!
Inbound message handling, from the private handle-user-message method.
-/

/-- Embedding of the enriched_data dict literal: the client dict is spread
first, then the server-assigned user_id, session_id and timestamp bindings
are written, overriding client bindings of the same names. -/
def enriched_data (data : Event) (uid sid ts : String) : Event :=
  setA "timestamp" (JVal.s ts) (setA "session_id" (JVal.s sid) (setA "user_id" (JVal.s uid) data))

/-- The three outputs of one handle-user-message call: the event appended to
history, the event handed to the Local Broadcaster with its exclusion, and
the event published on the shared broker channel. -/
structure UserMessageResult where
  stored : Event
  broadcast : Event
  broadcast_exclude : Option String
  published : Event
deriving DecidableEq, Repr

/-- Embedding of the private handle-user-message method: enrich once, then
store, broadcast excluding the sender, and publish, all with the same
enriched dict. -/
def handle_user_message (sid uid : String) (data : Event) (ts : String) : UserMessageResult :=
  let e := enriched_data data uid sid ts
  { stored := e, broadcast := e, broadcast_exclude := some uid, published := e }

/-!
Cross-Process Relay subscriber, from the private handle-pubsub-messages
loop body.
-/

/-- How the relay loop turns the decoded user_id field into the
exclude_user argument: a string value is passed through (empty string is
falsy and excludes nobody, matching is_excluded), any non-string or absent
value never matches a registered uid. -/
def exclude_of (v : Option JVal) : Option String :=
  match v with
  | some (JVal.s u) => some u
  | _ => none

/-- Embedding of one iteration of the relay subscriber: read session_id and
user_id from the decoded event, and if the session has local participants,
broadcast to them excluding the origin id. -/
def handle_pubsub_message {WS : Type} (sessions : List (String × List (String × WS)))
    (data : Event) : List WS :=
  match getA "session_id" data with
  | some (JVal.s sid) => broadcast_to_session sessions sid (exclude_of (getA "user_id" data))
  | _ => []

/-- Websockets delivered on the ORIGIN process for one user message: the
direct local broadcast from handle-user-message, followed by the relay
subscriber run on the same enriched event when the broker echoes the
publish back to the publishing process. -/
def origin_process_deliveries {WS : Type} (sessions : List (String × List (String × WS)))
    (sid uid : String) (data : Event) (ts : String) (brokerEchoes : Bool) : List WS :=
  let e := enriched_data data uid sid ts
  broadcast_to_session sessions sid (some uid) ++
    (if brokerEchoes then handle_pubsub_message sessions e else [])

/-!
Session Registry, from handle_connection (admission phase) and the private
handle-user-disconnect method.
-/

/-- In-memory registry state of the manager: active_sessions maps a session
id to its participant dict (uid to websocket), session_metadata tracks the
user_count of each session (created_at carries no invariant and is left
out). -/
structure ManagerState (WS : Type) where
  active_sessions : List (String × List (String × WS))
  session_metadata : List (String × Int)
deriving DecidableEq, Repr

/-- The synthesized USER_JOIN event dict built in handle_connection. -/
def user_join_event (uid ts : String) (userCount : Int) : Event :=
  [("type", JVal.s "user_join"), ("user_id", JVal.s uid),
   ("timestamp", JVal.s ts), ("user_count", JVal.i userCount)]

/-- The synthesized USER_LEAVE event dict built in the disconnect handler. -/
def user_leave_event (uid ts : String) (userCount : Int) : Event :=
  [("type", JVal.s "user_leave"), ("user_id", JVal.s uid),
   ("timestamp", JVal.s ts), ("user_count", JVal.i userCount)]

/-- Side effects of one registry operation: the calls made to the private
broadcast-to-session method (event and exclude_user argument), and the
events published on the shared broker channel. -/
structure StepEffects where
  local_broadcasts : List (Event × Option String)
  publishes : List Event
deriving DecidableEq, Repr

/-- Embedding of the admission phase of handle_connection: create the
session entry and its metadata when absent, register the fresh uid,
increment user_count, and broadcast a USER_JOIN locally excluding the new
participant. No publish call appears in this code path. -/
def handle_connection_join {WS : Type} (st : ManagerState WS) (sid uid ts : String) (ws : WS) :
    ManagerState WS × StepEffects :=
  let st1 : ManagerState WS :=
    if (getA sid st.active_sessions).isSome then st
    else { active_sessions := setA sid [] st.active_sessions,
           session_metadata := setA sid 0 st.session_metadata }
  let parts := (getA sid st1.active_sessions).getD []
  let newCount := ((getA sid st1.session_metadata).getD 0) + 1
  let st2 : ManagerState WS :=
    { active_sessions := setA sid (setA uid ws parts) st1.active_sessions,
      session_metadata := setA sid newCount st1.session_metadata }
  (st2, { local_broadcasts := [(user_join_event uid ts newCount, some uid)], publishes := [] })

/-- Embedding of the private handle-user-disconnect method: when the
session is known, drop the uid binding and decrement user_count if the uid
is registered, broadcast a USER_LEAVE with the updated count and no
exclusion, and delete the session and metadata entries when the
participant dict became empty. No publish call appears in this code
path. -/
def handle_user_disconnect {WS : Type} (st : ManagerState WS) (sid uid ts : String) :
    ManagerState WS × StepEffects :=
  match getA sid st.active_sessions with
  | none => (st, { local_broadcasts := [], publishes := [] })
  | some parts =>
    let present := (getA uid parts).isSome
    let parts1 := if present then delA uid parts else parts
    let meta1 := if present
      then setA sid (((getA sid st.session_metadata).getD 0) - 1) st.session_metadata
      else st.session_metadata
    let count1 := (getA sid meta1).getD 0
    let eff : StepEffects :=
      { local_broadcasts := [(user_leave_event uid ts count1, none)], publishes := [] }
    if parts1.isEmpty then
      ({ active_sessions := delA sid st.active_sessions,
         session_metadata := delA sid meta1 }, eff)
    else
      ({ active_sessions := setA sid parts1 st.active_sessions,
         session_metadata := meta1 }, eff)

/-- Registry invariant: modelled dicts are well formed, every registered
session has a nonempty participant dict, and its user_count metadata equals
the number of registered participants. -/
def RegistryInv {WS : Type} (st : ManagerState WS) : Prop :=
  NodupKeys st.active_sessions ∧ NodupKeys st.session_metadata ∧
  (∀ p ∈ st.active_sessions, NodupKeys p.2) ∧
  (∀ p ∈ st.active_sessions, p.2 ≠ []) ∧
  (∀ p ∈ st.active_sessions, getA p.1 st.session_metadata = some (p.2.length : Int))

instance {WS : Type} [DecidableEq WS] (st : ManagerState WS) : Decidable (RegistryInv st) := by
  unfold RegistryInv
  infer_instance

/-!
Message-receive loop of handle_connection, one iteration.
-/

/-- Log level of the structlog call observed in one loop iteration. -/
inductive LogLevel where
  | debug
  | warning
  | error
deriving DecidableEq, Repr

/-- One raw frame read from the websocket, as the loop body sees it:
json.loads raises (invalid_json), decodes to a non-dict value so that
data.get raises AttributeError (non_object), or decodes to a dict
(object). -/
inductive Inbound where
  | invalid_json (raw : String)
  | non_object (v : JVal)
  | object (fields : Event)
deriving DecidableEq, Repr

/-- Observable outcome of one iteration of the message-receive loop. -/
structure LoopStep where
  closes_connection : Bool
  continues_loop : Bool
  stored : List Event
  broadcast_calls : List (Event × Option String)
  publishes : List Event
  logs : List LogLevel
deriving DecidableEq, Repr

/-- Embedding of one iteration of the receive loop in handle_connection: a
json.loads failure is logged as a warning and skipped, an exception from
handle_user_message on a non-dict (AttributeError on data.get) is logged as
an error and skipped, and a dict is processed in full; no branch closes the
connection or leaves the loop. -/
def process_inbound (sid uid ts : String) (msg : Inbound) : LoopStep :=
  match msg with
  | .invalid_json _ =>
    { closes_connection := false, continues_loop := true, stored := [],
      broadcast_calls := [], publishes := [], logs := [LogLevel.warning] }
  | .non_object _ =>
    { closes_connection := false, continues_loop := true, stored := [],
      broadcast_calls := [], publishes := [], logs := [LogLevel.error] }
  | .object data =>
    let r := handle_user_message sid uid data ts
    { closes_connection := false, continues_loop := true, stored := [r.stored],
      broadcast_calls := [(r.broadcast, r.broadcast_exclude)],
      publishes := [r.published], logs := [LogLevel.debug] }

/-- A frame is malformed when it fails to decode or decodes to a non-dict. -/
def malformed (msg : Inbound) : Bool :=
  match msg with
  | .object _ => false
  | _ => true

/-!
Startup, from CollaborationManager.start.
-/

/-- Broker reachability at process start: whether the initial PING and the
channel SUBSCRIBE succeed. -/
structure BrokerEnv where
  ping_ok : Bool
  subscribe_ok : Bool
deriving DecidableEq, Repr

/-- State reached when start returns normally. -/
structure StartedState where
  subscribed_channel : String
  pubsub_listener_running : Bool
deriving DecidableEq, Repr

/-- Embedding of CollaborationManager.start: the try block pings the broker
and subscribes the pubsub channel; the except block logs the error and
re-raises, so a broker failure propagates to the caller as an exception
(Except.error). There is no degraded-mode branch. -/
def start (env : BrokerEnv) : Except String StartedState :=
  if env.ping_ok then
    if env.subscribe_ok then
      Except.ok { subscribed_channel := "escap_collaboration", pubsub_listener_running := true }
    else Except.error "Failed to start collaboration manager"
  else Except.error "Failed to start collaboration manager"

/-!
Helper lemmas.
-/

theorem take_append_take {α : Type} (n : Nat) (xs ys : List α) :
    (xs ++ ys.take n).take n = (xs ++ ys).take n := by
  rw [List.take_append_eq_append_take, List.take_append_eq_append_take, List.take_take,
    Nat.min_eq_left (Nat.sub_le n xs.length)]

theorem append_all_eq {α : Type} (es : List α) (l0 : List α) (h : l0.length ≤ 1000) :
    append_all l0 es = (es.reverse ++ l0).take 1000 := by
  induction es generalizing l0 with
  | nil =>
    simp only [append_all, List.foldl_nil, List.reverse_nil, List.nil_append]
    exact (List.take_of_length_le h).symm
  | cons e es ih =>
    have h1 : ((e :: l0).take 1000).length ≤ 1000 := by
      simp [List.length_take]
    have h2 : append_all l0 (e :: es) = append_all ((e :: l0).take 1000) es := by
      simp [append_all, store_session_event]
    rw [h2, ih _ h1, take_append_take]
    simp [List.append_assoc]

theorem setA_ne_nil {V : Type} (k : String) (v : V) (l : List (String × V)) :
    setA k v l ≠ [] := by
  cases l with
  | nil => simp [setA]
  | cons p l =>
    by_cases hp : p.1 = k
    · simp [setA, hp]
    · simp [setA, hp]

theorem setA_setA {V : Type} (k : String) (v w : V) (l : List (String × V)) :
    setA k v (setA k w l) = setA k v l := by
  induction l with
  | nil => simp [setA]
  | cons p l ih =>
    by_cases hp : p.1 = k
    · simp [setA, hp]
    · simp [setA, hp, ih]

theorem getA_eq_none_iff {V : Type} {k : String} {l : List (String × V)} :
    getA k l = none ↔ k ∉ keysOf l := by
  induction l with
  | nil => simp [getA, keysOf]
  | cons p l ih =>
    by_cases hp : p.1 = k
    · simp [getA, hp, keysOf]
    · simp only [getA, if_neg hp, keysOf, List.map_cons, List.mem_cons]
      rw [ih]
      unfold keysOf
      constructor
      · intro hnone hc
        rcases hc with hc | hc
        · exact hp hc.symm
        · exact hnone hc
      · intro hni hc
        exact hni (Or.inr hc)

theorem setA_of_getA_some {V : Type} {k : String} {v : V} {l : List (String × V)}
    (h : getA k l = some v) : setA k v l = l := by
  induction l with
  | nil => simp [getA] at h
  | cons p l ih =>
    by_cases hp : p.1 = k
    · simp only [getA, if_pos hp] at h
      cases h
      rcases p with ⟨a, b⟩
      simp only at hp
      simp [setA, hp]
    · simp only [getA, if_neg hp] at h
      simp [setA, hp, ih h]

theorem filterMap_if_eq_map_filter {β γ : Type} (c : β → Bool) (f : β → γ) (l : List β) :
    l.filterMap (fun p => if c p then none else some (f p))
      = (l.filter (fun p => !(c p))).map f := by
  induction l with
  | nil => rfl
  | cons x l ih =>
    by_cases hx : c x
    · simp [List.filterMap_cons, List.filter_cons, hx, ih]
    · simp [List.filterMap_cons, List.filter_cons, hx, ih]

theorem getA_enriched_user_id (data : Event) (uid sid ts : String) :
    getA "user_id" (enriched_data data uid sid ts) = some (JVal.s uid) := by
  unfold enriched_data
  rw [getA_setA_ne (by decide : ("user_id" : String) ≠ "timestamp"),
    getA_setA_ne (by decide : ("user_id" : String) ≠ "session_id"), getA_setA_self]

theorem getA_enriched_session_id (data : Event) (uid sid ts : String) :
    getA "session_id" (enriched_data data uid sid ts) = some (JVal.s sid) := by
  unfold enriched_data
  rw [getA_setA_ne (by decide : ("session_id" : String) ≠ "timestamp"), getA_setA_self]

theorem getA_enriched_timestamp (data : Event) (uid sid ts : String) :
    getA "timestamp" (enriched_data data uid sid ts) = some (JVal.s ts) := by
  unfold enriched_data
  rw [getA_setA_self]

/-!
Claim theorems.
-/

/-- C1 counterexample: appending events A, B, C to an empty history and then
joining yields a session_state events field equal to the newest-first list
[C, B, A], not the chronological [A, B, C] required by the claim: the
newest-first list read from the store is sent without being reversed. -/
theorem session_state_not_chronological_cex :
    (send_session_state "s" (append_all ([] : List String) ["A", "B", "C"]) 1).events
        = ["C", "B", "A"] ∧
    (send_session_state "s" (append_all ([] : List String) ["A", "B", "C"]) 1).events
        ≠ ["A", "B", "C"] := by
  decide

/-- C1 amended: the session_state events field sent to a joining participant
is the newest-first reading of the history store truncated to 50 entries,
i.e. the reverse of the chronological append order; it is not reversed back
to chronological order before sending. -/
theorem session_state_events_newest_first {α : Type} (sid : String) (es : List α) (c : Int) :
    (send_session_state sid (append_all [] es) c).events = es.reverse.take 50 := by
  unfold send_session_state get_session_events
  rw [append_all_eq es [] (by simp), List.append_nil, List.take_take]
  norm_num

/-- C6: after more than 1000 appends to a session log that held at most 1000
entries, recent(1000) returns exactly the 1000 most recently appended
events newest first, and every single append leaves at most 1000 entries
(oldest evicted first). -/
theorem recent_after_many_appends {α : Type} (l0 es : List α)
    (h0 : l0.length ≤ 1000) (hN : 1000 < es.length) :
    get_session_events 1000 (append_all l0 es) = es.reverse.take 1000 ∧
    ∀ (e : α) (l : List α), (store_session_event e l).length ≤ 1000 := by
  constructor
  · unfold get_session_events
    rw [append_all_eq es l0 h0, List.take_take, Nat.min_self,
      List.take_append_of_le_length (by simpa using Nat.le_of_lt hN)]
  · intro e l
    unfold store_session_event
    simp [List.length_take]

/-- C6 witness: 1001 concrete appends into an empty log. -/
theorem recent_after_many_appends_witness :
    ([] : List Nat).length ≤ 1000 ∧ 1000 < (List.replicate 1001 (0 : Nat)).length ∧
    (get_session_events 1000 (append_all [] (List.replicate 1001 (0 : Nat)))
        = (List.replicate 1001 (0 : Nat)).reverse.take 1000 ∧
      ∀ (e : Nat) (l : List Nat), (store_session_event e l).length ≤ 1000) :=
  ⟨by rw [List.length_nil]; omega, by rw [List.length_replicate]; omega,
    recent_after_many_appends [] (List.replicate 1001 0)
      (by rw [List.length_nil]; omega) (by rw [List.length_replicate]; omega)⟩

/-- C10: the session_state message sent to a new joiner carries at most the
50 newest history entries, the length-50 prefix of the newest-first log,
even when the store holds up to 1000 events. -/
theorem session_state_limit_50 {α : Type} (sid : String) (log : List α) (c : Int) :
    (send_session_state sid log c).events.length ≤ 50 ∧
    (send_session_state sid log c).events = log.take 50 := by
  constructor
  · unfold send_session_state get_session_events
    simp only [List.length_take]
    exact min_le_left _ _
  · rfl

/-- C5: broadcasting to a registered session with exclude_user = P, where P
is a participant id (process-generated UUID strings are nonempty, hence
truthy), selects exactly the websockets of the participants other than P:
the entry of P is never selected and every other registered participant
is. -/
theorem broadcast_excludes_exactly {WS : Type} (sessions : List (String × List (String × WS)))
    (sid : String) (parts : List (String × WS)) (P : String)
    (hs : getA sid sessions = some parts) (hP : P ≠ "") :
    broadcast_to_session sessions sid (some P)
        = (parts.filter (fun q => q.1 ≠ P)).map Prod.snd ∧
    ∀ q ∈ parts, q.1 ≠ P → q.2 ∈ broadcast_to_session sessions sid (some P) := by
  have hPb : (P == "") = false := beq_eq_false_iff_ne.mpr hP
  have hexcl : ∀ uid : String, is_excluded (some P) uid = (uid == P) := by
    intro uid
    simp [is_excluded, hPb]
  have hws : websockets_to_send parts (some P)
      = (parts.filter (fun q => q.1 ≠ P)).map Prod.snd := by
    unfold websockets_to_send
    have hfun : (fun (p : String × WS) => if is_excluded (some P) p.1 then none else some p.2)
        = (fun p => if (p.1 == P) then none else some p.2) := by
      funext p
      rw [hexcl]
    rw [hfun, filterMap_if_eq_map_filter (fun p => p.1 == P) Prod.snd parts]
    congr 1
    apply List.filter_congr
    intro q _
    by_cases hq : q.1 = P
    · simp [hq]
    · simp [hq]
  have hbt : broadcast_to_session sessions sid (some P)
      = (parts.filter (fun q => q.1 ≠ P)).map Prod.snd := by
    unfold broadcast_to_session
    rw [hs]
    exact hws
  refine ⟨hbt, ?_⟩
  intro q hq hne
  rw [hbt]
  exact List.mem_map.mpr ⟨q, List.mem_filter.mpr ⟨hq, by simp [hne]⟩, rfl⟩

/-- C5 witness at a two-participant session. -/
theorem broadcast_excludes_exactly_witness :
    (getA "s" [("s", [("a", (0 : Nat)), ("b", 1)])] = some [("a", 0), ("b", 1)]
      ∧ "a" ≠ "") ∧
    (broadcast_to_session [("s", [("a", (0 : Nat)), ("b", 1)])] "s" (some "a")
        = ([("a", (0 : Nat)), ("b", 1)].filter (fun q => q.1 ≠ "a")).map Prod.snd ∧
      ∀ q ∈ [("a", (0 : Nat)), ("b", 1)], q.1 ≠ "a" →
        q.2 ∈ broadcast_to_session [("s", [("a", (0 : Nat)), ("b", 1)])] "s" (some "a")) :=
  ⟨⟨by decide, by decide⟩,
    broadcast_excludes_exactly [("s", [("a", (0 : Nat)), ("b", 1)])] "s"
      [("a", 0), ("b", 1)] "a" (by decide) (by decide)⟩

/-- C9: a well-formed inbound message is enriched once; the event appended
to history, the event broadcast locally and the event published
cross-process are the identical dict, whose user_id, session_id and
timestamp are the server-assigned values, overriding any client-supplied
bindings of those names; the single timestamp value is shared by all three
paths. -/
theorem enrichment_consistent (sid uid : String) (data : Event) (ts : String) :
    (handle_user_message sid uid data ts).stored
        = (handle_user_message sid uid data ts).broadcast ∧
    (handle_user_message sid uid data ts).broadcast
        = (handle_user_message sid uid data ts).published ∧
    getA "user_id" (handle_user_message sid uid data ts).stored = some (JVal.s uid) ∧
    getA "session_id" (handle_user_message sid uid data ts).stored = some (JVal.s sid) ∧
    getA "timestamp" (handle_user_message sid uid data ts).stored = some (JVal.s ts) :=
  ⟨rfl, rfl, getA_enriched_user_id data uid sid ts,
    getA_enriched_session_id data uid sid ts, getA_enriched_timestamp data uid sid ts⟩

/-- C8 counterexample: a frame decoding to the non-dict JSON value 5 is
malformed, yet the loop logs it at error level, not with the warning the
claim requires. -/
theorem malformed_nonobject_logs_error_cex :
    malformed (Inbound.non_object (JVal.i 5)) = true ∧
    LogLevel.warning ∉ (process_inbound "s" "u" "t" (Inbound.non_object (JVal.i 5))).logs ∧
    (process_inbound "s" "u" "t" (Inbound.non_object (JVal.i 5))).logs = [LogLevel.error] := by
  decide

/-- C8 amended: a malformed inbound frame is dropped with a logged warning
when json decoding fails, and with a logged error when the decoded value is
not a dict; in both cases the connection is not closed, the receive loop
continues, and nothing is stored, broadcast or published. -/
theorem malformed_dropped_without_effects (sid uid ts raw : String) (v : JVal) :
    process_inbound sid uid ts (Inbound.invalid_json raw)
        = { closes_connection := false, continues_loop := true, stored := [],
            broadcast_calls := [], publishes := [], logs := [LogLevel.warning] } ∧
    process_inbound sid uid ts (Inbound.non_object v)
        = { closes_connection := false, continues_loop := true, stored := [],
            broadcast_calls := [], publishes := [], logs := [LogLevel.error] } :=
  ⟨rfl, rfl⟩

/-- C3 counterexample: with the broker unreachable at process start, start
returns the re-raised failure instead of succeeding. -/
theorem start_broker_down_cex :
    start { ping_ok := false, subscribe_ok := true }
        = Except.error "Failed to start collaboration manager" ∧
    (start { ping_ok := false, subscribe_ok := true }).isOk = false :=
  ⟨rfl, rfl⟩

/-- C3 amended: when the broker is unreachable at process start, the except
block of start logs the failure and re-raises it, so the exception
propagates out of start to the caller; there is no degraded local-only
mode. -/
theorem start_propagates_broker_failure (sub : Bool) :
    start { ping_ok := false, subscribe_ok := sub }
        = Except.error "Failed to start collaboration manager" := rfl

/-- C4 counterexample: on the origin process, with the broker echoing the
publish back to the publishing process, the co-located participant u2
(websocket 1) receives the event of u1 twice, violating at-most-once
delivery. -/
theorem echo_double_delivery_cex :
    (origin_process_deliveries [("s", [("u1", (0 : Nat)), ("u2", 1)])] "s" "u1"
        [("type", JVal.s "view_change")] "t" true).count 1 = 2 ∧
    ¬ ((origin_process_deliveries [("s", [("u1", (0 : Nat)), ("u2", 1)])] "s" "u1"
        [("type", JVal.s "view_change")] "t" true).count 1 ≤ 1) := by
  decide

/-- C4 amended: the engine performs no deduplication: when the broker echoes
the publish back to the origin process, the relay subscriber re-broadcasts
the identical enriched event with the same origin exclusion, so the
delivery list on the origin process is the local broadcast list twice in
a row. -/
theorem echo_double_delivery {WS : Type} (sessions : List (String × List (String × WS)))
    (sid uid : String) (data : Event) (ts : String) :
    origin_process_deliveries sessions sid uid data ts true
        = broadcast_to_session sessions sid (some uid)
            ++ broadcast_to_session sessions sid (some uid) := by
  unfold origin_process_deliveries
  simp only [if_pos]
  unfold handle_pubsub_message
  rw [getA_enriched_session_id, getA_enriched_user_id]
  rfl

/-- C2 counterexample: at a concrete admission into an empty registry and
the matching disconnect, the synthesized USER_JOIN and USER_LEAVE events
are absent from the publish effects: neither code path publishes anything
on the shared broker channel. -/
theorem join_leave_not_published_cex :
    user_join_event "u" "t" 1
        ∉ (handle_connection_join (ManagerState.mk [] [] : ManagerState Nat)
            "s" "u" "t" 7).2.publishes ∧
    (handle_connection_join (ManagerState.mk [] [] : ManagerState Nat)
        "s" "u" "t" 7).2.publishes = [] ∧
    user_leave_event "u" "t" 0
        ∉ (handle_user_disconnect (handle_connection_join
            (ManagerState.mk [] [] : ManagerState Nat) "s" "u" "t" 7).1
            "s" "u" "t").2.publishes ∧
    (handle_user_disconnect (handle_connection_join
        (ManagerState.mk [] [] : ManagerState Nat) "s" "u" "t" 7).1
        "s" "u" "t").2.publishes = [] := by
  decide

/-- C2 amended: the synthesized USER_JOIN event is broadcast locally to
co-located participants (excluding the joiner) and the synthesized
USER_LEAVE is broadcast locally when the session is registered, but
neither admission nor disconnect publishes anything on the shared broker
channel: the join and leave notifications are never relayed
cross-process. -/
theorem join_leave_local_broadcast_only {WS : Type} (st : ManagerState WS)
    (sid uid ts sid2 uid2 ts2 : String) (ws : WS) :
    (∃ c, (handle_connection_join st sid uid ts ws).2.local_broadcasts
        = [(user_join_event uid ts c, some uid)]) ∧
    (handle_connection_join st sid uid ts ws).2.publishes = [] ∧
    (handle_user_disconnect st sid2 uid2 ts2).2.publishes = [] ∧
    (∀ parts, getA sid2 st.active_sessions = some parts →
      ∃ c, (handle_user_disconnect st sid2 uid2 ts2).2.local_broadcasts
          = [(user_leave_event uid2 ts2 c, none)]) ∧
    (getA sid2 st.active_sessions = none →
      (handle_user_disconnect st sid2 uid2 ts2).2.local_broadcasts = []) := by
  refine ⟨⟨_, rfl⟩, rfl, ?_, ?_, ?_⟩
  · cases hcase : getA sid2 st.active_sessions with
    | none => simp [handle_user_disconnect, hcase]
    | some parts =>
      simp only [handle_user_disconnect, hcase]
      split <;> split <;> rfl
  · intro parts hcase
    simp only [handle_user_disconnect, hcase]
    split <;> split <;> exact ⟨_, rfl⟩
  · intro hcase
    simp [handle_user_disconnect, hcase]

/-- C2 witness: a concrete admission into an empty registry, and a
disconnect of the one participant of a concrete registered session. -/
theorem join_leave_local_broadcast_only_witness :
    (∃ c, (handle_connection_join (ManagerState.mk [("s", [("u", (7 : Nat))])] [("s", 1)])
        "s" "v" "t" 8).2.local_broadcasts = [(user_join_event "v" "t" c, some "v")]) ∧
    (handle_connection_join (ManagerState.mk [("s", [("u", (7 : Nat))])] [("s", 1)])
        "s" "v" "t" 8).2.publishes = [] ∧
    (handle_user_disconnect (ManagerState.mk [("s", [("u", (7 : Nat))])] [("s", 1)])
        "s" "u" "t").2.publishes = [] ∧
    (∃ c, (handle_user_disconnect (ManagerState.mk [("s", [("u", (7 : Nat))])] [("s", 1)])
        "s" "u" "t").2.local_broadcasts = [(user_leave_event "u" "t" c, none)]) := by
  have h := join_leave_local_broadcast_only
    (ManagerState.mk [("s", [("u", (7 : Nat))])] [("s", 1)]) "s" "v" "t" "s" "u" "t" 8
  exact ⟨h.1, h.2.1, h.2.2.1, h.2.2.2.1 [("u", (7 : Nat))] (by decide)⟩

/-- C7: admission of a fresh participant id and disconnect both preserve
the registry invariant: a session entry exists in the local registry only
with a nonempty participant dict, and the user_count metadata of every
registered session equals the number of its registered participants.
Freshness of the admitted uid models the uuid4 generation in
handle_connection. -/
theorem registry_invariant_preserved {WS : Type} (st : ManagerState WS)
    (sid uid ts sid2 uid2 ts2 : String) (ws : WS)
    (hInv : RegistryInv st)
    (hfresh : ∀ parts, getA sid st.active_sessions = some parts → getA uid parts = none) :
    RegistryInv (handle_connection_join st sid uid ts ws).1 ∧
    RegistryInv (handle_user_disconnect st sid2 uid2 ts2).1 := by
  obtain ⟨h1, h2, h3, h4, h5⟩ := hInv
  constructor
  · cases hcase : getA sid st.active_sessions with
    | some parts =>
      have hmem : (sid, parts) ∈ st.active_sessions := mem_of_getA hcase
      have hfreshp : getA uid parts = none := hfresh parts hcase
      have hcnt : getA sid st.session_metadata = some (parts.length : Int) := h5 _ hmem
      have hnotmem : uid ∉ keysOf parts := getA_eq_none_iff.mp hfreshp
      have hset : setA uid ws parts = parts ++ [(uid, ws)] := setA_of_not_mem ws hnotmem
      have hres : (handle_connection_join st sid uid ts ws).1
          = ManagerState.mk (setA sid (setA uid ws parts) st.active_sessions)
              (setA sid ((parts.length : Int) + 1) st.session_metadata) := by
        simp [handle_connection_join, hcase, hcnt]
      rw [hres]
      refine ⟨nodupKeys_setA _ _ h1, nodupKeys_setA _ _ h2, ?_, ?_, ?_⟩
      · intro p hp
        rcases mem_setA_of_nodup h1 hp with rfl | ⟨hpold, hpneq⟩
        · exact nodupKeys_setA _ _ (h3 _ hmem)
        · exact h3 _ hpold
      · intro p hp
        rcases mem_setA_of_nodup h1 hp with rfl | ⟨hpold, hpneq⟩
        · exact setA_ne_nil _ _ _
        · exact h4 _ hpold
      · intro p hp
        rcases mem_setA_of_nodup h1 hp with rfl | ⟨hpold, hpneq⟩
        · show getA sid (setA sid ((parts.length : Int) + 1) st.session_metadata)
              = some (((setA uid ws parts).length : Int))
          rw [getA_setA_self, hset]
          congr 1
          rw [List.length_append, List.length_singleton]
          push_cast
          ring
        · rw [getA_setA_ne hpneq]
          exact h5 _ hpold
    | none =>
      have hres : (handle_connection_join st sid uid ts ws).1
          = ManagerState.mk (setA sid [(uid, ws)] st.active_sessions)
              (setA sid 1 st.session_metadata) := by
        simp [handle_connection_join, hcase, getA_setA_self, setA_setA, setA]
      rw [hres]
      refine ⟨nodupKeys_setA _ _ h1, nodupKeys_setA _ _ h2, ?_, ?_, ?_⟩
      · intro p hp
        rcases mem_setA_of_nodup h1 hp with rfl | ⟨hpold, hpneq⟩
        · simp [NodupKeys, keysOf]
        · exact h3 _ hpold
      · intro p hp
        rcases mem_setA_of_nodup h1 hp with rfl | ⟨hpold, hpneq⟩
        · simp
        · exact h4 _ hpold
      · intro p hp
        rcases mem_setA_of_nodup h1 hp with rfl | ⟨hpold, hpneq⟩
        · show getA sid (setA sid 1 st.session_metadata)
              = some (([(uid, ws)].length : Int))
          rw [getA_setA_self]
          simp
        · rw [getA_setA_ne hpneq]
          exact h5 _ hpold
  · cases hcase : getA sid2 st.active_sessions with
    | none =>
      have hres : (handle_user_disconnect st sid2 uid2 ts2).1 = st := by
        simp [handle_user_disconnect, hcase]
      rw [hres]
      exact ⟨h1, h2, h3, h4, h5⟩
    | some parts =>
      have hmem : (sid2, parts) ∈ st.active_sessions := mem_of_getA hcase
      have hcnt : getA sid2 st.session_metadata = some (parts.length : Int) := h5 _ hmem
      have hpnodup : NodupKeys parts := h3 _ hmem
      cases hpres : getA uid2 parts with
      | none =>
        have hne : parts ≠ [] := h4 _ hmem
        have hisem : parts.isEmpty = false := by
          cases parts with
          | nil => exact absurd rfl hne
          | cons q l => rfl
        have hres : (handle_user_disconnect st sid2 uid2 ts2).1 = st := by
          simp [handle_user_disconnect, hcase, hpres, hisem, setA_of_getA_some hcase]
        rw [hres]
        exact ⟨h1, h2, h3, h4, h5⟩
      | some w =>
        have hlen : (delA uid2 parts).length + 1 = parts.length :=
          length_delA_of_getA_some hpnodup hpres
        cases hdel : (delA uid2 parts).isEmpty with
        | true =>
          have hres : (handle_user_disconnect st sid2 uid2 ts2).1
              = ManagerState.mk (delA sid2 st.active_sessions)
                  (delA sid2 (setA sid2 ((parts.length : Int) - 1) st.session_metadata)) := by
            simp [handle_user_disconnect, hcase, hpres, hdel, hcnt]
          rw [hres]
          refine ⟨nodupKeys_delA _ h1, nodupKeys_delA _ (nodupKeys_setA _ _ h2), ?_, ?_, ?_⟩
          · intro p hp
            exact h3 _ ((mem_delA _ _ _).mp hp).1
          · intro p hp
            exact h4 _ ((mem_delA _ _ _).mp hp).1
          · intro p hp
            rcases (mem_delA _ _ _).mp hp with ⟨hpold, hpneq⟩
            rw [getA_delA_ne hpneq, getA_setA_ne hpneq]
            exact h5 _ hpold
        | false =>
          have hdne : delA uid2 parts ≠ [] := by
            intro hc
            rw [hc] at hdel
            simp at hdel
          have hres : (handle_user_disconnect st sid2 uid2 ts2).1
              = ManagerState.mk (setA sid2 (delA uid2 parts) st.active_sessions)
                  (setA sid2 ((parts.length : Int) - 1) st.session_metadata) := by
            simp [handle_user_disconnect, hcase, hpres, hdel, hcnt]
          rw [hres]
          refine ⟨nodupKeys_setA _ _ h1, nodupKeys_setA _ _ h2, ?_, ?_, ?_⟩
          · intro p hp
            rcases mem_setA_of_nodup h1 hp with rfl | ⟨hpold, hpneq⟩
            · exact nodupKeys_delA _ hpnodup
            · exact h3 _ hpold
          · intro p hp
            rcases mem_setA_of_nodup h1 hp with rfl | ⟨hpold, hpneq⟩
            · exact hdne
            · exact h4 _ hpold
          · intro p hp
            rcases mem_setA_of_nodup h1 hp with rfl | ⟨hpold, hpneq⟩
            · show getA sid2 (setA sid2 ((parts.length : Int) - 1) st.session_metadata)
                  = some (((delA uid2 parts).length : Int))
              rw [getA_setA_self]
              congr 1
              omega
            · rw [getA_setA_ne hpneq]
              exact h5 _ hpold

/-- C7 witness: one admission of a fresh id and one disconnect on a
concrete one-participant registry. -/
theorem registry_invariant_preserved_witness :
    RegistryInv (ManagerState.mk [("s", [("u", (5 : Nat))])] [("s", 1)]) ∧
    (RegistryInv (handle_connection_join
        (ManagerState.mk [("s", [("u", (5 : Nat))])] [("s", 1)]) "s" "v" "t" 6).1 ∧
      RegistryInv (handle_user_disconnect
        (ManagerState.mk [("s", [("u", (5 : Nat))])] [("s", 1)]) "s" "u" "t").1) := by
  have hfresh : ∀ parts,
      getA "s" (ManagerState.mk [("s", [("u", (5 : Nat))])] [("s", (1 : Int))]).active_sessions
        = some parts → getA "v" parts = none := by
    intro parts h
    have hg : getA "s"
        (ManagerState.mk [("s", [("u", (5 : Nat))])] [("s", (1 : Int))]).active_sessions
        = some [("u", (5 : Nat))] := by decide
    rw [hg] at h
    simp only [Option.some.injEq] at h
    subst h
    decide
  exact ⟨by decide,
    registry_invariant_preserved (ManagerState.mk [("s", [("u", (5 : Nat))])] [("s", 1)])
      "s" "v" "t" "s" "u" "t" 6 (by decide) hfresh⟩
end Collab
